import Mathlib

/-!
Shallow embedding of girasol's catalog core (`src/database.rs`) and the
local wait loop of `src/main.rs`, with theorems about the store operations.

The sled key-value store is embedded as an association list from keys to
the structural content of the stored bytes (a JSON value, since every
record is written through `simd_json`).  The serde-derived encoding of
`TraceModel` (with its `tag`/`content` attributes) is embedded as explicit
`toJson`/`fromJson` functions.  The actor handler
(`impl Handler<DbMsg> for DataActor`) becomes a state transformer on a
store state that also tracks stable storage (for the flush behaviour of
`DbMsg::Kill`) and whether the actor has stopped.
-/

/-- JSON values as produced/consumed by `simd_json` (database.rs uses only
numbers, strings, arrays and objects for the types it stores). -/
inductive Json where
  | num (n : Nat)
  | str (s : String)
  | arr (elems : List Json)
  | obj (fields : List (String × Json))

/-- Field lookup in a JSON object's field list (first match wins, as in a
JSON map with unique keys). -/
def lookupField : List (String × Json) → String → Option Json
  | [], _ => none
  | (k, v) :: rest, key => if k = key then some v else lookupField rest key

/-- `j.getField k`: the field `k` of an object, `none` on other values. -/
def Json.getField : Json → String → Option Json
  | .obj fields, key => lookupField fields key
  | _, _ => none

/-- `Frequency` from database.rs (serde: `tag = "frequency_mode"`,
`content = "value"`). -/
inductive Frequency where
  | Max
  | Default
  | Specific (n : Nat)
deriving DecidableEq, Repr

/-- `TraceContent` from database.rs (serde: `tag = "method"`,
`content = "content"`). -/
inductive TraceContent where
  | SystemTap (function_list : List String) (process : String)
      (args : List String) (envs : List (String × String))
  | PerfBranch (frequency : Frequency) (absolute_path : String)
      (additional_args : List String)
deriving DecidableEq, Repr

/-- `TraceModel` from database.rs: the persisted trace definition. -/
structure TraceModel where
  name : String
  lasting : Nat
  interval : Nat
  content : TraceContent
deriving DecidableEq, Repr

/-- serde's adjacently tagged encoding of `Frequency`: unit variants carry
only the tag, `Specific(n)` adds the `value` field. -/
def Frequency.toJson : Frequency → Json
  | .Max => .obj [("frequency_mode", .str "Max")]
  | .Default => .obj [("frequency_mode", .str "Default")]
  | .Specific n => .obj [("frequency_mode", .str "Specific"), ("value", .num n)]

/-- serde's decoder for the adjacently tagged `Frequency`. -/
def Frequency.fromJson (j : Json) : Option Frequency :=
  match j.getField "frequency_mode" with
  | some (.str "Max") => some .Max
  | some (.str "Default") => some .Default
  | some (.str "Specific") =>
    match j.getField "value" with
    | some (.num n) => some (.Specific n)
    | _ => none
  | _ => none

/-- Decode a list of JSON strings (a serde `Vec<String>`). -/
def decodeStrs : List Json → Option (List String)
  | [] => some []
  | .str s :: rest => (decodeStrs rest).map (s :: ·)
  | _ :: _ => none

/-- Decode a serde `Vec<String>` value. -/
def decodeStrList : Json → Option (List String)
  | .arr xs => decodeStrs xs
  | _ => none

/-- Decode a list of string pairs (serde encodes a `(String, String)` tuple
as a two-element JSON array). -/
def decodePairs : List Json → Option (List (String × String))
  | [] => some []
  | .arr [.str a, .str b] :: rest => (decodePairs rest).map ((a, b) :: ·)
  | _ :: _ => none

/-- Decode a serde `Vec<(String, String)>` value. -/
def decodePairList : Json → Option (List (String × String))
  | .arr xs => decodePairs xs
  | _ => none

/-- serde's adjacently tagged encoding of `TraceContent`
(`tag = "method"`, `content = "content"`). -/
def TraceContent.toJson : TraceContent → Json
  | .SystemTap fl p a e => .obj
      [("method", .str "SystemTap"),
       ("content", .obj
         [("function_list", .arr (fl.map .str)),
          ("process", .str p),
          ("args", .arr (a.map .str)),
          ("envs", .arr (e.map (fun kv => .arr [.str kv.1, .str kv.2])))])]
  | .PerfBranch f ap aa => .obj
      [("method", .str "PerfBranch"),
       ("content", .obj
         [("frequency", f.toJson),
          ("absolute_path", .str ap),
          ("additional_args", .arr (aa.map .str))])]

/-- serde's decoder for the adjacently tagged `TraceContent`. -/
def TraceContent.fromJson (j : Json) : Option TraceContent :=
  match j.getField "method", j.getField "content" with
  | some (.str "SystemTap"), some c =>
    match c.getField "function_list", c.getField "process",
          c.getField "args", c.getField "envs" with
    | some flj, some (.str p), some aj, some ej =>
      match decodeStrList flj, decodeStrList aj, decodePairList ej with
      | some fl, some a, some e => some (.SystemTap fl p a e)
      | _, _, _ => none
    | _, _, _, _ => none
  | some (.str "PerfBranch"), some c =>
    match c.getField "frequency", c.getField "absolute_path",
          c.getField "additional_args" with
    | some fj, some (.str ap), some aaj =>
      match Frequency.fromJson fj, decodeStrList aaj with
      | some f, some aa => some (.PerfBranch f ap aa)
      | _, _ => none
    | _, _, _ => none
  | _, _ => none

/-- serde's derived encoding of the `TraceModel` struct. -/
def TraceModel.toJson (m : TraceModel) : Json :=
  .obj [("name", .str m.name), ("lasting", .num m.lasting),
        ("interval", .num m.interval), ("content", m.content.toJson)]

/-- serde's derived decoder of the `TraceModel` struct. -/
def TraceModel.fromJson (j : Json) : Option TraceModel :=
  match j.getField "name", j.getField "lasting",
        j.getField "interval", j.getField "content" with
  | some (.str n), some (.num l), some (.num i), some cj =>
    (TraceContent.fromJson cj).map (fun c => ⟨n, l, i, c⟩)
  | _, _, _, _ => none

/-- The sled tree contents: keys (record names) to stored values. -/
abbrev Db := List (String × Json)

/-- `sled::Db::get`. -/
def dbGet (key : String) : Db → Option Json
  | [] => none
  | (k, v) :: rest => if k = key then some v else dbGet key rest

/-- `sled::Db::contains_key`. -/
def dbContains (key : String) (db : Db) : Bool :=
  (dbGet key db).isSome

/-- `sled::Db::insert`: sets the key's value, creating it if absent. -/
def dbInsert (key : String) (val : Json) : Db → Db
  | [] => [(key, val)]
  | (k, v) :: rest =>
    if k = key then (key, val) :: rest else (k, v) :: dbInsert key val rest

/-- `sled::Db::remove`: deletes the key's entry if present. -/
def dbRemove (key : String) : Db → Db
  | [] => []
  | (k, v) :: rest => if k = key then rest else (k, v) :: dbRemove key rest

/-- The anyhow error messages produced by database.rs, as a typed taxonomy:
`keyNotSet k` is "key {k} not set" (query_json/query_str), `keyExists k` is
"{k} exists" (insert_obj/insert_str and the Add handler), `doesNotExist k`
is "{k} does not exist" (the Remove handler) and `deserialize` is a
`simd_json` decoding failure. -/
inductive DbErr where
  | keyNotSet (key : String)
  | keyExists (key : String)
  | doesNotExist (key : String)
  | deserialize
deriving DecidableEq, Repr

/-- `query_json` from database.rs: fetch a key and decode the bytes. -/
def query_json (key : String) (db : Db) : Except DbErr TraceModel :=
  match dbGet key db with
  | none => .error (.keyNotSet key)
  | some j =>
    match TraceModel.fromJson j with
    | some m => .ok m
    | none => .error .deserialize

/-- `insert_str` from database.rs: refuse existing keys, else store the raw
string (its bytes embedded here as a string leaf).  The spawned
`flush_async` does not change the tree contents. -/
def insert_str (key content : String) (db : Db) : Except DbErr Db :=
  if dbContains key db then .error (.keyExists key)
  else .ok (dbInsert key (.str content) db)

/-- `insert_obj` from database.rs: refuse existing keys, else serialize the
content with `simd_json` and store it.  (Serialization of these derive-only
types cannot fail; the spawned `flush_async` does not change the tree.) -/
def insert_obj (key : String) (content : TraceModel) (db : Db) : Except DbErr Db :=
  if dbContains key db then .error (.keyExists key)
  else .ok (dbInsert key content.toJson db)

/-- `DbMsg` from database.rs. -/
inductive DbMsg where
  | QueryAll
  | Kill
  | Get (name : String)
  | Remove (name : String)
  | Add (model : TraceModel)

/-- `DbReply` from database.rs. -/
inductive DbReply where
  | AllList (models : List TraceModel)
  | GetResult (model : TraceModel)
  | Success
deriving DecidableEq, Repr

/-- One iteration of the `DbMsg::QueryAll` loop: `result.and_then` decodes
the record's value and pushes the model, so the first decode failure turns
the accumulator into an error that survives to the end. -/
def queryAllStep (acc : Except DbErr (List TraceModel)) (kv : String × Json) :
    Except DbErr (List TraceModel) :=
  acc.bind fun xs =>
    match TraceModel.fromJson kv.2 with
    | some m => .ok (xs ++ [m])
    | none => .error .deserialize

/-- The `DbMsg::QueryAll` arm: fold over every record of the tree. -/
def queryAll (db : Db) : Except DbErr (List TraceModel) :=
  db.foldl queryAllStep (.ok [])

/-- The state of the `DataActor` together with its environment: `mem` is
the sled tree (in-memory/log state readable by every operation), `disk` is
what has reached stable storage via a completed flush, `stopped` records
`Context::stop` having been called. -/
structure StoreState where
  mem : Db
  disk : Db
  stopped : Bool

/-- Completion of one of the asynchronous flushes spawned (not awaited) by
`insert_str`/`insert_obj` and the Remove handler. -/
def flushComplete (s : StoreState) : StoreState :=
  { s with disk := s.mem }

/-- The `Handler<DbMsg> for DataActor` handle function.  `flushOk` is the
outcome of the synchronous `self.db.flush()` performed by `DbMsg::Kill`
(its error is only logged); asynchronous flushes are spawned, not awaited,
so they leave `disk` unchanged here (see `flushComplete`). -/
def DataActor.handle (flushOk : Bool) (msg : DbMsg) (s : StoreState) :
    Except DbErr DbReply × StoreState :=
  match msg with
  | .QueryAll => ((queryAll s.mem).map .AllList, s)
  | .Get name => ((query_json name s.mem).map .GetResult, s)
  | .Kill =>
      (.ok .Success,
       { s with disk := if flushOk then s.mem else s.disk, stopped := true })
  | .Remove name =>
      if dbContains name s.mem then
        (.ok .Success, { s with mem := dbRemove name s.mem })
      else (.error (.doesNotExist name), s)
  | .Add model =>
      if dbContains model.name s.mem then (.error (.keyExists model.name), s)
      else
        match insert_obj model.name model s.mem with
        | .ok db => (.ok .Success, { s with mem := db })
        | .error e => (.error e, s)

/-- Delivery of one mailbox message to the actor: after `Context::stop` the
actor's mailbox is closed and no further message is processed (the xactor
runtime contract behind `_ctx.stop(None)`). -/
def DataActor.run (flushOk : Bool) (msg : DbMsg) (s : StoreState) :
    Option (Except DbErr DbReply × StoreState) :=
  if s.stopped then none else some (DataActor.handle flushOk msg s)

/-- Catalog operations for sequences of Adds and Removes. -/
inductive CatOp where
  | add (model : TraceModel)
  | remove (name : String)

/-- The message a catalog operation sends to the actor. -/
def CatOp.toMsg : CatOp → DbMsg
  | .add m => .Add m
  | .remove n => .Remove n

/-- Whether a handler reply is a success. -/
def isOkB : Except DbErr DbReply → Bool
  | .ok _ => true
  | .error _ => false

/-- Run a sequence of catalog operations through the actor, counting the
successful Adds and the successful Removes. -/
def runOps : List CatOp → StoreState → StoreState × Nat × Nat
  | [], s => (s, 0, 0)
  | op :: rest, s =>
    let step := DataActor.handle true op.toMsg s
    let next := runOps rest step.2
    match op with
    | .add _ => (next.1, (if isOkB step.1 then 1 else 0) + next.2.1, next.2.2)
    | .remove _ => (next.1, next.2.1, (if isOkB step.1 then 1 else 0) + next.2.2)

/-- One observable action of the `SubCommand::Local` wait loop in main.rs:
a `SeqCst` load of the shared `written` counter, or the `spin_loop()` hint
the loop body executes between two loads. -/
inductive WaitAction where
  | load (v : Nat)
  | spinHint
deriving DecidableEq, Repr

/-- The action trace of `while written.load(SeqCst) != 0 { spin_loop(); }`
(main.rs) against a finite sequence of observed counter values: each
non-zero observation is followed by a busy `spin_loop()` hint and another
load; the loop exits right after the first zero observation. -/
def localWaitTrace : List Nat → List WaitAction
  | [] => []
  | v :: rest =>
    if v = 0 then [.load 0]
    else .load v :: .spinHint :: localWaitTrace rest

/-- The index of the observation at which the Local wait loop exits
(`none` if no zero was observed in the finite prefix, i.e. the caller is
still blocked). -/
def localWaitExit : List Nat → Option Nat
  | [] => none
  | v :: rest =>
    if v = 0 then some 0 else (localWaitExit rest).map (· + 1)

/-! ### Round-trip of the serde encoding -/

@[simp]
theorem decodeStrs_map_str (l : List String) :
    decodeStrs (l.map .str) = some l := by
  induction l with
  | nil => rfl
  | cons s rest ih => simp [decodeStrs, ih]

@[simp]
theorem decodePairs_map (e : List (String × String)) :
    decodePairs (e.map (fun kv => .arr [.str kv.1, .str kv.2])) = some e := by
  induction e with
  | nil => rfl
  | cons kv rest ih => simp [decodePairs, ih]

@[simp]
theorem frequency_roundtrip (f : Frequency) :
    Frequency.fromJson f.toJson = some f := by
  cases f <;> rfl

@[simp]
theorem traceContent_roundtrip (c : TraceContent) :
    TraceContent.fromJson c.toJson = some c := by
  cases c with
  | SystemTap fl p a e =>
    simp [TraceContent.toJson, TraceContent.fromJson, Json.getField, lookupField,
      decodeStrList, decodePairList]
  | PerfBranch f ap aa =>
    simp [TraceContent.toJson, TraceContent.fromJson, Json.getField, lookupField,
      decodeStrList]

@[simp]
theorem traceModel_roundtrip (m : TraceModel) :
    TraceModel.fromJson m.toJson = some m := by
  simp [TraceModel.toJson, TraceModel.fromJson, Json.getField, lookupField]
/-! ### Association-list store lemmas -/

@[simp]
theorem dbGet_insert_self (key : String) (val : Json) (db : Db) :
    dbGet key (dbInsert key val db) = some val := by
  induction db with
  | nil => simp [dbInsert, dbGet]
  | cons kv rest ih =>
    obtain ⟨k, v⟩ := kv
    by_cases h : k = key <;> simp [dbInsert, dbGet, h, ih]

theorem dbGet_insert_ne (key key' : String) (val : Json) (db : Db)
    (h : key' ≠ key) : dbGet key' (dbInsert key val db) = dbGet key' db := by
  have h' : key ≠ key' := Ne.symm h
  induction db with
  | nil => simp [dbInsert, dbGet, h']
  | cons kv rest ih =>
    obtain ⟨k, v⟩ := kv
    by_cases hk : k = key
    · subst hk
      simp [dbInsert, dbGet, h']
    · simp only [dbInsert, if_neg hk, dbGet]
      by_cases hk' : k = key' <;> simp [hk', ih]

theorem dbInsert_of_not_contains (key : String) (val : Json) (db : Db)
    (h : dbContains key db = false) : dbInsert key val db = db ++ [(key, val)] := by
  induction db with
  | nil => rfl
  | cons kv rest ih =>
    obtain ⟨k, v⟩ := kv
    simp only [dbContains, dbGet] at h
    by_cases hk : k = key
    · simp [hk] at h
    · simp only [dbInsert, if_neg hk, List.cons_append, List.cons.injEq, true_and]
      exact ih (by simpa [dbContains, hk] using h)

theorem dbGet_remove_ne (key key' : String) (db : Db) (h : key' ≠ key) :
    dbGet key' (dbRemove key db) = dbGet key' db := by
  have h' : key ≠ key' := Ne.symm h
  induction db with
  | nil => rfl
  | cons kv rest ih =>
    obtain ⟨k, v⟩ := kv
    by_cases hk : k = key
    · subst hk
      simp [dbRemove, dbGet, h']
    · simp only [dbRemove, if_neg hk, dbGet]
      by_cases hk' : k = key' <;> simp [hk', ih]

theorem dbGet_remove_self (key : String) (db : Db)
    (hnd : (db.map Prod.fst).Nodup) : dbGet key (dbRemove key db) = none := by
  induction db with
  | nil => rfl
  | cons kv rest ih =>
    obtain ⟨k, v⟩ := kv
    simp only [List.map_cons, List.nodup_cons] at hnd
    by_cases hk : k = key
    · subst hk
      simp only [dbRemove, if_pos rfl]
      have hne : ∀ e ∈ rest, e.1 ≠ k := by
        intro e he
        exact fun hh => hnd.1 (hh ▸ List.mem_map_of_mem Prod.fst he)
      clear ih hnd
      induction rest with
      | nil => rfl
      | cons kv' rest' ih' =>
        simp only [dbGet, if_neg (hne kv' (by simp))]
        exact ih' (fun e he => hne e (by simp [he]))
    · simp only [dbRemove, if_neg hk, dbGet, if_neg hk]
      exact ih hnd.2

theorem length_dbRemove_of_contains (key : String) (db : Db)
    (h : dbContains key db = true) :
    (dbRemove key db).length + 1 = db.length := by
  induction db with
  | nil => simp [dbContains, dbGet] at h
  | cons kv rest ih =>
    obtain ⟨k, v⟩ := kv
    by_cases hk : k = key
    · simp [dbRemove, hk]
    · simp only [dbContains, dbGet, if_neg hk] at h
      simp [dbRemove, hk, ih h]

/-- Number of records stored under a given name. -/
def countKey (key : String) (db : Db) : Nat :=
  db.countP (fun kv => kv.1 == key)

theorem countKey_eq_zero_of_not_contains (key : String) (db : Db)
    (h : dbContains key db = false) : countKey key db = 0 := by
  induction db with
  | nil => rfl
  | cons kv rest ih =>
    obtain ⟨k, v⟩ := kv
    simp only [dbContains, dbGet] at h
    by_cases hk : k = key
    · simp [hk] at h
    · simp only [countKey, List.countP_cons] at *
      simp [hk, ih (by simpa [dbContains, if_neg hk] using h)]

/-! ### QueryAll characterization -/

/-- Recursive specification of the QueryAll fold: decode every record,
aborting on the first failure. -/
def decodeAll : Db → Except DbErr (List TraceModel)
  | [] => .ok []
  | kv :: rest =>
    match TraceModel.fromJson kv.2 with
    | none => .error .deserialize
    | some m => (decodeAll rest).map (m :: ·)

theorem queryAllStep_error (e : DbErr) (kv : String × Json) :
    queryAllStep (.error e) kv = .error e := rfl

theorem queryAll_foldl_error (db : Db) (e : DbErr) :
    db.foldl queryAllStep (.error e) = .error e := by
  induction db with
  | nil => rfl
  | cons kv rest ih => simpa [queryAllStep_error] using ih

theorem queryAll_foldl_ok (db : Db) (xs : List TraceModel) :
    db.foldl queryAllStep (.ok xs) = (decodeAll db).map (xs ++ ·) := by
  induction db generalizing xs with
  | nil => simp [decodeAll, Except.map]
  | cons kv rest ih =>
    simp only [List.foldl_cons, queryAllStep, Except.bind, decodeAll]
    cases hj : TraceModel.fromJson kv.2 with
    | none => simp [queryAll_foldl_error, Except.map]
    | some m =>
      simp only [ih (xs ++ [m])]
      cases decodeAll rest <;> simp [Except.map]

theorem queryAll_eq_decodeAll (db : Db) : queryAll db = decodeAll db := by
  have h := queryAll_foldl_ok db []
  simp only [queryAll, h]
  cases decodeAll db <;> simp [Except.map]

theorem decodeAll_ok_of_decodable (db : Db)
    (h : ∀ kv ∈ db, ∃ m, TraceModel.fromJson kv.2 = some m) :
    decodeAll db = .ok (db.filterMap (fun kv => TraceModel.fromJson kv.2)) := by
  induction db with
  | nil => rfl
  | cons kv rest ih =>
    obtain ⟨m, hm⟩ := h kv (by simp)
    simp only [decodeAll, hm, List.filterMap_cons, ih (fun e he => h e (by simp [he])),
      Except.map]

theorem decodeAll_error_of_corrupt (db : Db)
    (h : ∃ kv ∈ db, TraceModel.fromJson kv.2 = none) :
    decodeAll db = .error .deserialize := by
  induction db with
  | nil => simp at h
  | cons kv rest ih =>
    obtain ⟨e, he, hbad⟩ := h
    rcases List.mem_cons.mp he with rfl | hmem
    · simp [decodeAll, hbad]
    · cases hj : TraceModel.fromJson kv.2 with
      | none => simp [decodeAll, hj]
      | some m => simp [decodeAll, hj, ih ⟨e, hmem, hbad⟩, Except.map]

/-! ### Sample values for concrete instantiations -/

/-- A sample trace definition (the spec's concrete scenario `probe1`). -/
def sampleModel : TraceModel :=
  ⟨"probe1", 3, 10, .SystemTap ["f", "g"] "proc" ["-a"] [("K", "V")]⟩

/-- A second definition with the same name, different body. -/
def sampleModel2 : TraceModel :=
  ⟨"probe1", 5, 7, .PerfBranch (.Specific 99) "/bin/x" ["--all"]⟩

/-- The actor over an empty catalog. -/
def emptyState : StoreState := ⟨[], [], false⟩

/-- The actor over a catalog holding exactly `sampleModel`. -/
def oneState : StoreState :=
  ⟨[("probe1", TraceModel.toJson sampleModel)], [], false⟩

/-! ### Claims -/

/-- C1: for every definition whose name is not yet in the catalog, Add
returns Success and a subsequent Get of that name returns a definition
equal to the one added (serialize-on-Add / deserialize-on-Get round-trips
every definition). -/
theorem add_then_get_roundtrip (flushOk : Bool) (s : StoreState)
    (m : TraceModel) (h : dbContains m.name s.mem = false) :
    (DataActor.handle flushOk (.Add m) s).1 = .ok .Success ∧
    (DataActor.handle flushOk (.Get m.name)
        (DataActor.handle flushOk (.Add m) s).2).1 = .ok (.GetResult m) := by
  simp [DataActor.handle, insert_obj, h, query_json, Except.map]

/-- Witness for C1 at the concrete scenario: add `probe1` to the empty
catalog, then get it back. -/
theorem add_then_get_roundtrip_witness :
    (DataActor.handle true (.Add sampleModel) emptyState).1 = .ok .Success ∧
    (DataActor.handle true (.Get sampleModel.name)
        (DataActor.handle true (.Add sampleModel) emptyState).2).1 =
      .ok (.GetResult sampleModel) :=
  add_then_get_roundtrip true emptyState sampleModel rfl

/-- C2: adding a second definition under an existing name fails with the
Conflict error `"{name} exists"` and leaves the catalog unchanged — it
still holds exactly one record under that name, equal to the first
definition added; when the name was absent the first Add persisted the
record and returned Success. -/
theorem add_conflict_spec (flushOk : Bool) (s : StoreState)
    (d d' : TraceModel) (h0 : dbContains d.name s.mem = false)
    (hn : d'.name = d.name) :
    (DataActor.handle flushOk (.Add d) s).1 = .ok .Success ∧
    (DataActor.handle flushOk (.Add d')
        (DataActor.handle flushOk (.Add d) s).2).1 =
      .error (.keyExists d.name) ∧
    (DataActor.handle flushOk (.Add d')
        (DataActor.handle flushOk (.Add d) s).2).2 =
      (DataActor.handle flushOk (.Add d) s).2 ∧
    countKey d.name (DataActor.handle flushOk (.Add d) s).2.mem = 1 ∧
    query_json d.name (DataActor.handle flushOk (.Add d) s).2.mem = .ok d := by
  have hc : dbContains d.name (dbInsert d.name d.toJson s.mem) = true := by
    simp [dbContains]
  refine ⟨by simp [DataActor.handle, insert_obj, h0], ?_, ?_, ?_, ?_⟩
  · simp [DataActor.handle, insert_obj, h0, hn, hc]
  · simp [DataActor.handle, insert_obj, h0, hn, hc]
  · simp only [DataActor.handle, insert_obj, h0, Bool.false_eq_true, if_false]
    rw [dbInsert_of_not_contains d.name d.toJson s.mem h0]
    simp only [countKey, List.countP_append]
    rw [show s.mem.countP (fun kv => kv.1 == d.name) = 0 from
      countKey_eq_zero_of_not_contains d.name s.mem h0]
    simp [List.countP_cons]
  · simp [DataActor.handle, insert_obj, h0, query_json]

/-- Witness for C2: add `probe1`, then add a different definition under the
same name. -/
theorem add_conflict_spec_witness :
    (DataActor.handle true (.Add sampleModel) emptyState).1 = .ok .Success ∧
    (DataActor.handle true (.Add sampleModel2)
        (DataActor.handle true (.Add sampleModel) emptyState).2).1 =
      .error (.keyExists sampleModel.name) ∧
    (DataActor.handle true (.Add sampleModel2)
        (DataActor.handle true (.Add sampleModel) emptyState).2).2 =
      (DataActor.handle true (.Add sampleModel) emptyState).2 ∧
    countKey sampleModel.name
        (DataActor.handle true (.Add sampleModel) emptyState).2.mem = 1 ∧
    query_json sampleModel.name
        (DataActor.handle true (.Add sampleModel) emptyState).2.mem =
      .ok sampleModel :=
  add_conflict_spec true emptyState sampleModel sampleModel2 rfl rfl

/-- C4: Remove fails with the NotFound error `"{name} does not exist"` and
changes nothing when the name is absent; when present it returns Success
and a following Get fails with the NotFound error `"key {name} not set"`. -/
theorem remove_spec (flushOk : Bool) (s : StoreState) (name : String)
    (hnd : (s.mem.map Prod.fst).Nodup) :
    (dbContains name s.mem = false →
      DataActor.handle flushOk (.Remove name) s =
        (.error (.doesNotExist name), s)) ∧
    (dbContains name s.mem = true →
      (DataActor.handle flushOk (.Remove name) s).1 = .ok .Success ∧
      (DataActor.handle flushOk (.Get name)
          (DataActor.handle flushOk (.Remove name) s).2).1 =
        .error (.keyNotSet name)) := by
  constructor
  · intro h
    simp [DataActor.handle, h]
  · intro h
    refine ⟨by simp [DataActor.handle, h], ?_⟩
    simp [DataActor.handle, h, query_json, Except.map,
      dbGet_remove_self name s.mem hnd]

/-- Witness for C4: remove an absent name from the empty catalog, and
remove `probe1` from the catalog that holds it. -/
theorem remove_spec_witness :
    DataActor.handle true (.Remove "probe1") emptyState =
      (.error (.doesNotExist "probe1"), emptyState) ∧
    (DataActor.handle true (.Remove "probe1") oneState).1 = .ok .Success ∧
    (DataActor.handle true (.Get "probe1")
        (DataActor.handle true (.Remove "probe1") oneState).2).1 =
      .error (.keyNotSet "probe1") :=
  ⟨(remove_spec true emptyState "probe1" (by decide)).1 rfl,
   (remove_spec true oneState "probe1" (by decide)).2 rfl⟩

/-- C5: Get returns the TraceDefinition stored under a name when one is
stored there, and fails with the NotFound error `"key {name} not set"`
when the name is absent. -/
theorem get_spec (flushOk : Bool) (s : StoreState) (name : String) :
    (dbGet name s.mem = none →
      DataActor.handle flushOk (.Get name) s =
        (.error (.keyNotSet name), s)) ∧
    (∀ m : TraceModel, dbGet name s.mem = some m.toJson →
      DataActor.handle flushOk (.Get name) s = (.ok (.GetResult m), s)) := by
  constructor
  · intro h
    simp [DataActor.handle, query_json, h, Except.map]
  · intro m h
    simp [DataActor.handle, query_json, h, Except.map]

/-- Witness for C5: get `probe1` from the catalog that holds it, and from
the empty catalog. -/
theorem get_spec_witness :
    DataActor.handle true (.Get "probe1") oneState =
      (.ok (.GetResult sampleModel), oneState) ∧
    DataActor.handle true (.Get "probe1") emptyState =
      (.error (.keyNotSet "probe1"), emptyState) :=
  ⟨(get_spec true oneState "probe1").2 sampleModel rfl,
   (get_spec true emptyState "probe1").1 rfl⟩

/-- C3 counterexample: the Local wait loop of main.rs is a CPU-busy poll,
not a blocking wait — between two successive loads of the shared counter
it executes only the busy `spin_loop()` hint, as its action trace against
the observations `[1, 1, 0]` shows. -/
theorem localWait_busy_poll_counterexample :
    localWaitTrace [1, 1, 0] =
      [.load 1, .spinHint, .load 1, .spinHint, .load 0] ∧
    WaitAction.spinHint ∈ localWaitTrace [1, 1, 0] := by
  refine ⟨rfl, ?_⟩
  rw [show localWaitTrace [1, 1, 0] =
    [.load 1, .spinHint, .load 1, .spinHint, .load 0] from rfl]
  simp

/-- C3 (amended): the Local wait loop blocks the caller until the shared
counter reaches zero and unblocks exactly at the first observation of
zero, not before; but it is implemented as a CPU-busy spin
(`std::hint::spin_loop` between successive `SeqCst` loads), not as a
blocking wait on a condition variable, semaphore or channel. -/
theorem localWait_unblocks_at_zero (obs : List Nat) (i : Nat)
    (h : localWaitExit obs = some i) :
    obs[i]? = some 0 ∧
    (∀ j, j < i → ∃ v, obs[j]? = some v ∧ v ≠ 0) ∧
    (0 < i → WaitAction.spinHint ∈ localWaitTrace obs) := by
  induction obs generalizing i with
  | nil => simp [localWaitExit] at h
  | cons v rest ih =>
    by_cases hv : v = 0
    · subst hv
      rw [show localWaitExit (0 :: rest) = some 0 from by simp [localWaitExit]] at h
      obtain rfl := Option.some.inj h
      exact ⟨by simp, fun j hj => absurd hj (Nat.not_lt_zero j), fun h0 => absurd h0 (by simp)⟩
    · simp only [localWaitExit, if_neg hv, Option.map_eq_some'] at h
      obtain ⟨i', hi', rfl⟩ := h
      obtain ⟨h1, h2, _⟩ := ih i' hi'
      refine ⟨by simpa using h1, ?_, ?_⟩
      · intro j hj
        cases j with
        | zero => exact ⟨v, by simp, hv⟩
        | succ j' =>
          obtain ⟨w, hw, hw0⟩ := h2 j' (Nat.lt_of_succ_lt_succ hj)
          exact ⟨w, by simpa using hw, hw0⟩
      · intro _
        simp [localWaitTrace, if_neg hv]

/-- Witness for the amended C3: against observations `[1, 0]` the loop
exits at index 1, having seen only the non-zero value 1 before. -/
theorem localWait_unblocks_at_zero_witness :
    [1, 0][1]? = some 0 ∧
    (∀ j, j < 1 → ∃ v, [1, 0][j]? = some v ∧ v ≠ 0) ∧
    (0 < 1 → WaitAction.spinHint ∈ localWaitTrace [1, 0]) :=
  localWait_unblocks_at_zero [1, 0] 1 rfl

/-- C7: QueryAll returns the full list of stored definitions when every
record deserializes, and when some record is undecodable that record's
error aborts the whole query — an error is returned instead of any
partial list. -/
theorem queryAll_spec (flushOk : Bool) (s : StoreState) :
    ((∀ kv ∈ s.mem, ∃ m, TraceModel.fromJson kv.2 = some m) →
      DataActor.handle flushOk .QueryAll s =
        (.ok (.AllList (s.mem.filterMap (fun kv => TraceModel.fromJson kv.2))), s)) ∧
    ((∃ kv ∈ s.mem, TraceModel.fromJson kv.2 = none) →
      DataActor.handle flushOk .QueryAll s = (.error .deserialize, s)) := by
  constructor
  · intro h
    simp [DataActor.handle, queryAll_eq_decodeAll, decodeAll_ok_of_decodable s.mem h,
      Except.map]
  · intro h
    simp [DataActor.handle, queryAll_eq_decodeAll, decodeAll_error_of_corrupt s.mem h,
      Except.map]

/-- A catalog holding one well-formed record and one corrupt record. -/
def corruptState : StoreState :=
  ⟨[("probe1", TraceModel.toJson sampleModel), ("bad", .num 0)], [], false⟩

/-- Witness for C7: QueryAll over the one-record catalog returns the
record; over the catalog with a corrupt record it returns an error. -/
theorem queryAll_spec_witness :
    DataActor.handle true .QueryAll oneState =
      (.ok (.AllList (oneState.mem.filterMap (fun kv => TraceModel.fromJson kv.2))),
       oneState) ∧
    DataActor.handle true .QueryAll corruptState =
      (.error .deserialize, corruptState) :=
  ⟨(queryAll_spec true oneState).1
      (by
        intro kv hkv
        rw [show oneState.mem = [("probe1", TraceModel.toJson sampleModel)] from rfl,
          List.mem_singleton] at hkv
        subst hkv
        exact ⟨sampleModel, rfl⟩),
   (queryAll_spec true corruptState).2 ⟨("bad", .num 0), by simp [corruptState], rfl⟩⟩

/-- C8: Kill performs the synchronous flush of all pending writes to
stable storage, stops the actor, and afterwards the actor accepts no
further message. -/
theorem kill_flushes_and_stops (s : StoreState) (msg : DbMsg) :
    (DataActor.handle true .Kill s).1 = .ok .Success ∧
    (DataActor.handle true .Kill s).2.disk = s.mem ∧
    (DataActor.handle true .Kill s).2.stopped = true ∧
    DataActor.run true msg (DataActor.handle true .Kill s).2 = none := by
  simp [DataActor.handle, DataActor.run]

/-- C9: Kill always replies Ok(Success): even when the synchronous flush
fails (so stable storage is left as it was), the error is only logged, the
caller still receives Success and the actor stops. -/
theorem kill_always_success (flushOk : Bool) (s : StoreState) :
    (DataActor.handle flushOk .Kill s).1 = .ok .Success ∧
    (DataActor.handle flushOk .Kill s).2.stopped = true ∧
    (DataActor.handle flushOk .Kill s).2.mem = s.mem ∧
    (DataActor.handle false .Kill s).2.disk = s.disk := by
  simp [DataActor.handle]

/-- C10: no store operation overwrites the value under an existing key —
for every message, a stored record either survives unchanged or (only for
a Remove of exactly that key) disappears; and `insert_obj` independently
re-checks existence, refusing any key already present. -/
theorem no_overwrite (flushOk : Bool) (msg : DbMsg) (s : StoreState)
    (key : String) (v : Json) (hnd : (s.mem.map Prod.fst).Nodup)
    (h : dbGet key s.mem = some v) :
    (dbGet key (DataActor.handle flushOk msg s).2.mem = some v ∨
      (msg = .Remove key ∧
        dbGet key (DataActor.handle flushOk msg s).2.mem = none)) ∧
    (∀ m : TraceModel, insert_obj key m s.mem = .error (.keyExists key)) := by
  have hcont : dbContains key s.mem = true := by simp [dbContains, h]
  constructor
  · cases msg with
    | QueryAll => exact Or.inl (by simpa [DataActor.handle] using h)
    | Get name => exact Or.inl (by simpa [DataActor.handle] using h)
    | Kill => exact Or.inl (by simpa [DataActor.handle] using h)
    | Remove name =>
      by_cases hc : dbContains name s.mem
      · by_cases hk : name = key
        · subst hk
          exact Or.inr ⟨rfl, by
            simp [DataActor.handle, hc, dbGet_remove_self name s.mem hnd]⟩
        · refine Or.inl ?_
          simp only [DataActor.handle, hc, if_true]
          rw [dbGet_remove_ne name key s.mem (Ne.symm hk)]
          exact h
      · simp only [Bool.not_eq_true] at hc
        exact Or.inl (by simpa [DataActor.handle, hc] using h)
    | Add m =>
      by_cases hc : dbContains m.name s.mem
      · exact Or.inl (by simpa [DataActor.handle, hc] using h)
      · simp only [Bool.not_eq_true] at hc
        have hne : key ≠ m.name := by
          intro hh
          rw [hh] at hcont
          rw [hcont] at hc
          exact Bool.noConfusion hc
        refine Or.inl ?_
        simp only [DataActor.handle, insert_obj, hc, Bool.false_eq_true, if_false]
        rw [dbGet_insert_ne m.name key m.toJson s.mem hne]
        exact h
  · intro m
    simp [insert_obj, hcont]

/-- Witness for C10: in the one-record catalog, adding a different
definition under a fresh name leaves `probe1` intact, and `insert_obj`
refuses the existing key. -/
theorem no_overwrite_witness :
    (dbGet "probe1"
        (DataActor.handle true (.Add ⟨"other", 1, 2, .PerfBranch .Max "/y" []⟩)
          oneState).2.mem = some (TraceModel.toJson sampleModel) ∨
      (DbMsg.Add ⟨"other", 1, 2, .PerfBranch .Max "/y" []⟩ = .Remove "probe1" ∧
        dbGet "probe1"
          (DataActor.handle true (.Add ⟨"other", 1, 2, .PerfBranch .Max "/y" []⟩)
            oneState).2.mem = none)) ∧
    (∀ m : TraceModel,
      insert_obj "probe1" m oneState.mem = .error (.keyExists "probe1")) :=
  no_overwrite true (.Add ⟨"other", 1, 2, .PerfBranch .Max "/y" []⟩) oneState
    "probe1" (TraceModel.toJson sampleModel) (by decide) rfl
/-! ### The Add/Remove counting invariant -/

/-- Every record of the tree deserializes to a model (true of any tree
produced by the handlers alone, since Add stores serialized models). -/
def allDecodable (db : Db) : Prop :=
  ∀ kv ∈ db, ∃ m, TraceModel.fromJson kv.2 = some m

theorem mem_of_mem_dbRemove (kv : String × Json) (key : String) (db : Db)
    (h : kv ∈ dbRemove key db) : kv ∈ db := by
  induction db with
  | nil => exact h
  | cons kv' rest ih =>
    obtain ⟨k, v⟩ := kv'
    by_cases hk : k = key
    · simp only [dbRemove, if_pos hk] at h
      exact List.mem_cons_of_mem _ h
    · simp only [dbRemove, if_neg hk, List.mem_cons] at h
      rcases h with rfl | h
      · exact List.mem_cons_self _ _
      · exact List.mem_cons_of_mem _ (ih h)

theorem length_filterMap_of_decodable (db : Db) (h : allDecodable db) :
    (db.filterMap (fun kv => TraceModel.fromJson kv.2)).length = db.length := by
  induction db with
  | nil => rfl
  | cons kv rest ih =>
    obtain ⟨m, hm⟩ := h kv (by simp)
    simp [List.filterMap_cons, hm,
      ih (fun e he => h e (List.mem_cons_of_mem _ he))]

theorem runOps_invariant (ops : List CatOp) (s : StoreState)
    (h : allDecodable s.mem) :
    allDecodable (runOps ops s).1.mem ∧
    (runOps ops s).1.mem.length + (runOps ops s).2.2 =
      s.mem.length + (runOps ops s).2.1 := by
  induction ops generalizing s with
  | nil => exact ⟨h, by simp [runOps]⟩
  | cons op rest ih =>
    cases op with
    | add m =>
      by_cases hc : dbContains m.name s.mem
      · have hs : DataActor.handle true (CatOp.add m).toMsg s =
            (.error (.keyExists m.name), s) := by
          simp [CatOp.toMsg, DataActor.handle, hc]
        obtain ⟨h1, h2⟩ := ih s h
        constructor
        · simpa [runOps, hs] using h1
        · simp [runOps, hs, isOkB]
          omega
      · simp only [Bool.not_eq_true] at hc
        have hs : DataActor.handle true (CatOp.add m).toMsg s =
            (.ok .Success,
             { s with mem := s.mem ++ [(m.name, m.toJson)] }) := by
          simp [CatOp.toMsg, DataActor.handle, insert_obj, hc,
            dbInsert_of_not_contains m.name m.toJson s.mem hc]
        have hdec : allDecodable (s.mem ++ [(m.name, m.toJson)]) := by
          intro kv hkv
          rcases List.mem_append.mp hkv with hkv | hkv
          · exact h kv hkv
          · rw [List.mem_singleton] at hkv
            subst hkv
            exact ⟨m, traceModel_roundtrip m⟩
        obtain ⟨h1, h2⟩ := ih { s with mem := s.mem ++ [(m.name, m.toJson)] } hdec
        constructor
        · simpa [runOps, hs] using h1
        · simp only [List.length_append, List.length_singleton] at h2
          simp [runOps, hs, isOkB]
          omega
    | remove n =>
      by_cases hc : dbContains n s.mem
      · have hs : DataActor.handle true (CatOp.remove n).toMsg s =
            (.ok .Success, { s with mem := dbRemove n s.mem }) := by
          simp [CatOp.toMsg, DataActor.handle, hc]
        have hdec : allDecodable (dbRemove n s.mem) :=
          fun kv hkv => h kv (mem_of_mem_dbRemove kv n s.mem hkv)
        obtain ⟨h1, h2⟩ := ih { s with mem := dbRemove n s.mem } hdec
        have hlen := length_dbRemove_of_contains n s.mem hc
        constructor
        · simpa [runOps, hs] using h1
        · simp only at h2
          simp [runOps, hs, isOkB]
          omega
      · have hs : DataActor.handle true (CatOp.remove n).toMsg s =
            (.error (.doesNotExist n), s) := by
          simp only [Bool.not_eq_true] at hc
          simp [CatOp.toMsg, DataActor.handle, hc]
        obtain ⟨h1, h2⟩ := ih s h
        constructor
        · simpa [runOps, hs] using h1
        · simp [runOps, hs, isOkB]
          omega

/-- C6: after any sequence of Adds and Removes starting from the empty
catalog, QueryAll succeeds and returns exactly
(number of successful Adds) − (number of successful Removes) records,
failed operations leaving the catalog unchanged. -/
theorem queryAll_count_invariant (ops : List CatOp) :
    ∃ l, queryAll (runOps ops emptyState).1.mem = .ok l ∧
      l.length =
        (runOps ops emptyState).2.1 - (runOps ops emptyState).2.2 ∧
      (runOps ops emptyState).2.2 ≤ (runOps ops emptyState).2.1 := by
  obtain ⟨hdec, hlen⟩ :=
    runOps_invariant ops emptyState (fun kv hkv => absurd hkv (List.not_mem_nil kv))
  have hfm := length_filterMap_of_decodable _ hdec
  simp only [show emptyState.mem = [] from rfl, List.length_nil] at hlen
  exact ⟨_, by rw [queryAll_eq_decodeAll, decodeAll_ok_of_decodable _ hdec],
    by omega, by omega⟩
